import Mathlib

/-!
Shallow embedding of the URL-shortener service (main.go) and proofs of the
specified properties.

Modelling conventions:
* Go byte slices and the byte content of Go strings are `List Nat` with every
  element `< 256` stated as a hypothesis where it matters.
* The keyed AES block cipher built by `aes.NewCipher(secretKey)` is a Go
  standard-library primitive, not code of this repository; it enters the
  embedding as an abstract parameter `f : Bytes → Bytes` together with the
  facts the library guarantees (each output block has 16 bytes, all < 256).
  CTR mode itself (counter increment, keystream, XOR) is modelled concretely.
* Randomness (`rand.Read` for the IV, `rand.Int` for id draws) is passed in as
  explicit inputs, with the guarantees of the random source as hypotheses.
* Fallible operations return `Option`; `none` corresponds to the Go code's
  fatal/panic branch.
-/

namespace Shortener

/-- Go byte slices / byte strings. -/
abbrev Bytes := List Nat

/-! ## Hex encoding (encoding/hex) -/

/-- The lowercase hex digit table used by `hex.EncodeToString`. -/
def hexTable : List Char := "0123456789abcdef".toList

/-- Digit character for a nibble. -/
def hexDigitChar (n : Nat) : Char := hexTable.getD n '0'

/-- hex.EncodeToString: every byte becomes two lowercase hex characters,
high nibble first. -/
def hexEncode : Bytes → List Char
  | [] => []
  | b :: rest => hexDigitChar (b / 16) :: hexDigitChar (b % 16) :: hexEncode rest

/-- fromHexChar of encoding/hex: value of one hex digit, accepting both
cases, `none` on a non-hex character. -/
def hexDecodeChar (c : Char) : Option Nat :=
  if '0' ≤ c ∧ c ≤ '9' then some (c.toNat - '0'.toNat)
  else if 'a' ≤ c ∧ c ≤ 'f' then some (c.toNat - 'a'.toNat + 10)
  else if 'A' ≤ c ∧ c ≤ 'F' then some (c.toNat - 'A'.toNat + 10)
  else none

/-- hex.DecodeString: pairs of hex digits to bytes; fails on an odd-length
input or a non-hex character. -/
def hexDecode : List Char → Option Bytes
  | [] => some []
  | [_] => none
  | c1 :: c2 :: rest =>
    match hexDecodeChar c1, hexDecodeChar c2, hexDecode rest with
    | some hi, some lo, some bs => some ((16 * hi + lo) :: bs)
    | _, _, _ => none

/-! ## CTR mode (crypto/cipher, ctr.go) -/

/-- aes.BlockSize. -/
def aesBlockSize : Nat := 16

/-- Little-endian byte increment with carry (helper for the big-endian
counter increment of ctr.go, applied to the reversed counter). -/
def incrLE : Bytes → Bytes
  | [] => []
  | b :: rest => if b + 1 < 256 then (b + 1) :: rest else 0 :: incrLE rest

/-- ctr.go refreshCtr: increment the counter as a big-endian integer with
wraparound. -/
def ctrIncr (ctr : Bytes) : Bytes := (incrLE ctr.reverse).reverse

/-- Keystream blocks of CTR mode: encrypt the counter, increment, repeat. -/
def keystreamBlocks (f : Bytes → Bytes) (ctr : Bytes) : Nat → Bytes
  | 0 => []
  | m + 1 => f ctr ++ keystreamBlocks f (ctrIncr ctr) m

/-- The first n keystream bytes of CTR mode with initial counter iv. -/
def keystream (f : Bytes → Bytes) (iv : Bytes) (n : Nat) : Bytes :=
  (keystreamBlocks f iv ((n + 15) / 16)).take n

/-- ctr.XORKeyStream: XOR the data with the keystream. -/
def ctrXor (f : Bytes → Bytes) (iv : Bytes) (data : Bytes) : Bytes :=
  List.zipWith Nat.xor data (keystream f iv data.length)

/-- An abstract keyed block cipher as produced by `aes.NewCipher`: each
output block has exactly 16 bytes, all of them bytes. -/
def BlockFn (f : Bytes → Bytes) : Prop :=
  (∀ x, (f x).length = 16) ∧ (∀ x, ∀ b ∈ f x, b < 256)

/-! ## encrypt / decrypt (main.go) -/

/-- main.go encrypt: build `IV ‖ CTR(plaintext)` and hex-encode it. The IV is
the 16 random bytes `rand.Read` put at the front of the buffer, passed here
explicitly. -/
def encrypt (f : Bytes → Bytes) (iv : Bytes) (orignalUrl : Bytes) : List Char :=
  hexEncode (iv ++ ctrXor f iv orignalUrl)

/-- main.go decrypt: hex-decode, split off the block-size IV, and run the same
CTR keystream over the ciphertext. `none` is the fatal branch (hex decode
error, or a decoded payload shorter than the block size, on which the Go
slice expression panics). -/
def decrypt (f : Bytes → Bytes) (encryptedUrl : List Char) : Option Bytes :=
  match hexDecode encryptedUrl with
  | none => none
  | some cipherText =>
    if cipherText.length < aesBlockSize then none
    else
      some (ctrXor f (cipherText.take aesBlockSize) (cipherText.drop aesBlockSize))

/-! ## Short id generation (main.go generateShortId) -/

/-- The 62-symbol alphabet of main.go (`lettersRune`). -/
def lettersRune : List Char :=
  "abcdefghijklmnopqrstuvwxyzABCDEFGHIJKLMNOPQRSTUVWXYZ0123456789".toList

/-- main.go generateShortId: six independent draws from the random source,
each an index below `len(lettersRune)`, mapped into the alphabet. The draws
of `rand.Int(rand.Reader, 62)` are passed in as a stream. -/
def generateShortId (draws : Nat → Nat) : List Char :=
  (List.range 6).map (fun i => lettersRune.getD (draws i) 'a')

/-! ## The URL store (main.go urlStore with its mutex) -/

/-- The in-memory map id → encrypted payload, embedded as an association
list whose lookup returns the most recent binding (matching Go map
get/put semantics). -/
abbrev Store := List (List Char × List Char)

/-- Map lookup (`urlStore[shortId]` read under the mutex). -/
def storeGet (id : List Char) : Store → Option (List Char)
  | [] => none
  | (k, v) :: rest => if k = id then some v else storeGet id rest

/-- Map update (`urlStore[shortId] = encryptedUrl` under the mutex). -/
def storePut (id payload : List Char) (s : Store) : Store := (id, payload) :: s

/-! ## HTTP handlers (main.go shortenUrl, redirectHandler) -/

/-- The observable outcome of one handler call: `http.Error` with its status,
`http.Redirect`, a 200 body written with `fmt.Fprintf`, or the process-fatal
branch (`sugar.Fatal`). -/
inductive HResponse where
  | Error (msg : String) (status : Nat)
  | Redirect (target : Bytes) (status : Nat)
  | Ok (body : String)
  | Fatal
deriving DecidableEq, Repr

/-- strings.HasPrefix on byte strings. -/
def goStartsWith : Bytes → Bytes → Bool
  | _, [] => true
  | [], _ :: _ => false
  | x :: xs, p :: ps => x == p && goStartsWith xs ps

/-- Byte content of an ASCII Go string literal. -/
def asciiBytes (s : String) : Bytes := s.toList.map Char.toNat

/-- main.go shortenUrl: validate the `url` query value (`""` when absent),
then encrypt, generate an id, and store. The fresh IV and the id draws are
the randomness consumed by the call. -/
def shortenUrl (f : Bytes → Bytes) (urlParam iv : Bytes) (draws : Nat → Nat)
    (store : Store) : HResponse × Store :=
  if urlParam = [] then
    (HResponse.Error "URL parameter in query is required" 400, store)
  else if !(goStartsWith urlParam (asciiBytes "https://")
            || goStartsWith urlParam (asciiBytes "http://")) then
    (HResponse.Error "URL parameter must have the value https:// or http://" 400, store)
  else
    let encryptedUrl := encrypt f iv urlParam
    let shortId := generateShortId draws
    (HResponse.Ok ("The shortened url is: http://localhost:8080/" ++ String.mk shortId),
     storePut shortId encryptedUrl store)

/-- main.go redirectHandler: the id is `r.URL.Path[1:]`; unknown ids get a
404, otherwise the stored payload is decrypted and answered as a 302
(`http.StatusFound`) redirect. -/
def redirectHandler (f : Bytes → Bytes) (path : List Char) (store : Store) :
    HResponse × Store :=
  let shortId := path.drop 1
  match storeGet shortId store with
  | none => (HResponse.Error "This url does not exist in our project" 404, store)
  | some encryptedUrl =>
    match decrypt f encryptedUrl with
    | none => (HResponse.Fatal, store)
    | some decryptedUrl => (HResponse.Redirect decryptedUrl 302, store)

/-! ## Rate limiter (main.go RateLimiter.allow over Redis) -/

/-- One Redis counter: current value and absolute expiry time. -/
structure CounterEntry where
  count : Nat
  expiry : Nat
deriving DecidableEq, Repr

/-- The counter-service state: key → counter, newest binding first. -/
abbrev RedisState := List (String × CounterEntry)

def redisGet (k : String) : RedisState → Option CounterEntry
  | [] => none
  | (k', e) :: rest => if k' = k then some e else redisGet k rest

def redisSet (k : String) (e : CounterEntry) (s : RedisState) : RedisState :=
  (k, e) :: s

/-- The count INCR sees at time t: an entry whose expiry has passed has been
deleted by Redis, so its count reads as 0. -/
def liveCount (s : RedisState) (k : String) (t : Nat) : Nat :=
  match redisGet k s with
  | some e => if t < e.expiry then e.count else 0
  | none => 0

structure RateLimiter where
  limit : Nat
  window : Nat

/-- main.go RateLimiter.allow: a TxPipeline of INCR k followed by
EXPIRE k window, executed atomically at time t. Both commands run on every
call, so the expiry is refreshed to `t + window` each time. `execOk = false`
models `pipe.Exec` returning an error (counter service unreachable), on
which the function returns false. -/
def RateLimiter.allow (rl : RateLimiter) (k : String) (t : Nat) (execOk : Bool)
    (s : RedisState) : Bool × RedisState :=
  if execOk then
    let newCount := liveCount s k t + 1
    (decide (newCount ≤ rl.limit), redisSet k ⟨newCount, t + rl.window⟩ s)
  else
    (false, s)

/-- A sequence of successful allow calls for one key at the given times. -/
def allowRun (rl : RateLimiter) (k : String) (times : List Nat) (s : RedisState) :
    List Bool × RedisState :=
  match times with
  | [] => ([], s)
  | t :: rest =>
    let r1 := rl.allow k t true s
    let r2 := allowRun rl k rest r1.2
    (r1.1 :: r2.1, r2.2)

/-! ## Reachable store states -/

/-- Store states reachable from the empty initial map through handler calls.
The side conditions on `shorten` are the guarantees of the random source:
`rand.Read` fills exactly `aes.BlockSize` bytes, and each id draw is an
index below 62; the bytes of the query value are bytes. -/
inductive Reachable (f : Bytes → Bytes) : Store → Prop where
  | init : Reachable f []
  | shorten (s : Store) (urlParam iv : Bytes) (draws : Nat → Nat) :
      Reachable f s → iv.length = 16 → (∀ b ∈ iv, b < 256) →
      (∀ i, draws i < 62) → (∀ b ∈ urlParam, b < 256) →
      Reachable f (shortenUrl f urlParam iv draws s).2
  | redirect (s : Store) (path : List Char) :
      Reachable f s → Reachable f (redirectHandler f path s).2

/-- Well-formedness of one store entry: the key is a 6-character id over the
62-symbol alphabet and the value is the crypto engine's output for some
valid URL and some well-formed IV. -/
def EntryWF (f : Bytes → Bytes) (e : List Char × List Char) : Prop :=
  (e.1.length = 6 ∧ ∀ c ∈ e.1, c ∈ lettersRune) ∧
  ∃ u iv : Bytes,
    (goStartsWith u (asciiBytes "https://") = true ∨
     goStartsWith u (asciiBytes "http://") = true) ∧
    (∀ b ∈ u, b < 256) ∧ iv.length = 16 ∧ (∀ b ∈ iv, b < 256) ∧
    e.2 = encrypt f iv u

/-! ## Concrete instantiations used by the witnesses -/

/-- A concrete keyed block cipher for witness instantiation: every block
encrypts to the zero block. -/
def zeroBlock : Bytes → Bytes := fun _ => List.replicate 16 0

/-- A concrete all-zero IV. -/
def ivZero : Bytes := List.replicate 16 0

/-- A concrete IV different from `ivZero`. -/
def ivOne : Bytes := 1 :: List.replicate 15 0

/-- A concrete draw stream (always index 0, id "aaaaaa"). -/
def drawsZero : Nat → Nat := fun _ => 0

/-- A concrete valid URL. -/
def urlX : Bytes := asciiBytes "http://x"

/-- The store after one successful shorten of `urlX`. -/
def zeroStore1 : Store := (shortenUrl zeroBlock urlX ivZero drawsZero []).2

/-! # Helper lemmas -/

theorem hexEncode_length (bs : Bytes) : (hexEncode bs).length = 2 * bs.length := by
  induction bs with
  | nil => rfl
  | cons b rest ih => simp [hexEncode, ih]; ring

theorem hexDecodeChar_hexDigitChar : ∀ n < 16, hexDecodeChar (hexDigitChar n) = some n := by
  decide

theorem hexDecode_hexEncode (bs : Bytes) (h : ∀ b ∈ bs, b < 256) :
    hexDecode (hexEncode bs) = some bs := by
  induction bs with
  | nil => rfl
  | cons b rest ih =>
    have hb : b < 256 := h b (by simp)
    have h1 : b / 16 < 16 := by omega
    have h2 : b % 16 < 16 := by omega
    have ih' : hexDecode (hexEncode rest) = some rest :=
      ih (fun x hx => h x (by simp [hx]))
    simp only [hexEncode, hexDecode, hexDecodeChar_hexDigitChar _ h1,
      hexDecodeChar_hexDigitChar _ h2, ih']
    have : 16 * (b / 16) + b % 16 = b := by omega
    simp [this]

theorem hexEncode_injOn (bs1 bs2 : Bytes) (h1 : ∀ b ∈ bs1, b < 256)
    (h2 : ∀ b ∈ bs2, b < 256) (he : hexEncode bs1 = hexEncode bs2) : bs1 = bs2 := by
  have := hexDecode_hexEncode bs1 h1
  rw [he, hexDecode_hexEncode bs2 h2] at this
  exact (Option.some_injective _ this).symm

theorem keystreamBlocks_length (f : Bytes → Bytes) (hf : ∀ x, (f x).length = 16)
    (ctr : Bytes) (m : Nat) : (keystreamBlocks f ctr m).length = 16 * m := by
  induction m generalizing ctr with
  | zero => rfl
  | succ m ih => simp [keystreamBlocks, hf, ih]; ring

theorem keystream_length (f : Bytes → Bytes) (hf : ∀ x, (f x).length = 16)
    (iv : Bytes) (n : Nat) : (keystream f iv n).length = n := by
  simp [keystream, keystreamBlocks_length f hf]
  omega

theorem keystreamBlocks_lt (f : Bytes → Bytes) (hf : ∀ x, ∀ b ∈ f x, b < 256)
    (ctr : Bytes) (m : Nat) : ∀ b ∈ keystreamBlocks f ctr m, b < 256 := by
  induction m generalizing ctr with
  | zero => simp [keystreamBlocks]
  | succ m ih =>
    intro b hb
    simp only [keystreamBlocks, List.mem_append] at hb
    rcases hb with hb | hb
    · exact hf ctr b hb
    · exact ih (ctrIncr ctr) b hb

theorem keystream_lt (f : Bytes → Bytes) (hf : ∀ x, ∀ b ∈ f x, b < 256)
    (iv : Bytes) (n : Nat) : ∀ b ∈ keystream f iv n, b < 256 := by
  intro b hb
  exact keystreamBlocks_lt f hf iv _ b (List.mem_of_mem_take hb)

theorem zipWith_xor_involution :
    ∀ (u ks : Bytes), u.length ≤ ks.length →
      List.zipWith Nat.xor (List.zipWith Nat.xor u ks) ks = u := by
  intro u
  induction u with
  | nil => intro ks _; simp
  | cons a u ih =>
    intro ks hk
    cases ks with
    | nil => simp at hk
    | cons k ks =>
      simp only [List.zipWith]
      rw [ih ks (by simpa using hk)]
      congr 1
      show a ^^^ k ^^^ k = a
      rw [Nat.xor_assoc, Nat.xor_self, Nat.xor_zero]

theorem zipWith_xor_lt :
    ∀ (u ks : Bytes), (∀ b ∈ u, b < 256) → (∀ b ∈ ks, b < 256) →
      ∀ b ∈ List.zipWith Nat.xor u ks, b < 256 := by
  intro u
  induction u with
  | nil => intro ks _ _ b hb; simp at hb
  | cons a u ih =>
    intro ks hu hk b hb
    cases ks with
    | nil => simp at hb
    | cons k ks =>
      simp only [List.zipWith, List.mem_cons] at hb
      rcases hb with hb | hb
      · subst hb
        have ha : a < 2 ^ 8 := hu a (by simp)
        have hk' : k < 2 ^ 8 := hk k (by simp)
        exact Nat.xor_lt_two_pow ha hk'
      · exact ih ks (fun x hx => hu x (by simp [hx])) (fun x hx => hk x (by simp [hx])) b hb

theorem ctrXor_length (f : Bytes → Bytes) (hf : ∀ x, (f x).length = 16)
    (iv data : Bytes) : (ctrXor f iv data).length = data.length := by
  simp [ctrXor, keystream_length f hf]

theorem ctrXor_ctrXor (f : Bytes → Bytes) (hf : ∀ x, (f x).length = 16)
    (iv data : Bytes) : ctrXor f iv (ctrXor f iv data) = data := by
  have h1 : (ctrXor f iv data).length = data.length := ctrXor_length f hf iv data
  rw [show ctrXor f iv (ctrXor f iv data)
        = List.zipWith Nat.xor (ctrXor f iv data)
            (keystream f iv (ctrXor f iv data).length) from rfl,
    h1, ctrXor]
  exact zipWith_xor_involution data _ (by rw [keystream_length f hf])

theorem ctrXor_lt (f : Bytes → Bytes) (hf : ∀ x, ∀ b ∈ f x, b < 256)
    (iv data : Bytes) (hd : ∀ b ∈ data, b < 256) :
    ∀ b ∈ ctrXor f iv data, b < 256 :=
  zipWith_xor_lt data _ hd (keystream_lt f hf iv _)

theorem decrypt_encrypt (f : Bytes → Bytes) (hf : BlockFn f) (iv u : Bytes)
    (hiv : iv.length = 16) (hivb : ∀ b ∈ iv, b < 256) (hub : ∀ b ∈ u, b < 256) :
    decrypt f (encrypt f iv u) = some u := by
  obtain ⟨hf1, hf2⟩ := hf
  have hct : ∀ b ∈ iv ++ ctrXor f iv u, b < 256 := by
    intro b hb
    rcases List.mem_append.mp hb with hb | hb
    · exact hivb b hb
    · exact ctrXor_lt f hf2 iv u hub b hb
  unfold decrypt encrypt
  rw [hexDecode_hexEncode _ hct]
  have hlen : (iv ++ ctrXor f iv u).length = 16 + u.length := by
    simp [ctrXor_length f hf1, hiv]
  have hnlt : ¬ (iv ++ ctrXor f iv u).length < aesBlockSize := by
    simp [hlen, aesBlockSize]
  simp only [hnlt, if_false]
  have htake : (iv ++ ctrXor f iv u).take aesBlockSize = iv := by
    rw [show aesBlockSize = iv.length from hiv.symm]
    exact List.take_left iv _
  have hdrop : (iv ++ ctrXor f iv u).drop aesBlockSize = ctrXor f iv u := by
    rw [show aesBlockSize = iv.length from hiv.symm]
    exact List.drop_left iv _
  rw [htake, hdrop, ctrXor_ctrXor f hf1]

theorem lettersRune_length : lettersRune.length = 62 := by decide

theorem generateShortId_length (draws : Nat → Nat) :
    (generateShortId draws).length = 6 := by
  simp [generateShortId]

theorem generateShortId_mem (draws : Nat → Nat) (h : ∀ i, draws i < 62) :
    ∀ c ∈ generateShortId draws, c ∈ lettersRune := by
  intro c hc
  simp only [generateShortId, List.mem_map, List.mem_range] at hc
  obtain ⟨i, _, rfl⟩ := hc
  have hlt : draws i < lettersRune.length := by rw [lettersRune_length]; exact h i
  rw [List.getD_eq_getElem lettersRune 'a' hlt]
  exact List.getElem_mem hlt

theorem storeGet_storePut (id payload : List Char) (s : Store) :
    storeGet id (storePut id payload s) = some payload := by
  simp [storeGet, storePut]

theorem storeGet_mem (id : List Char) (s : Store) (v : List Char)
    (h : storeGet id s = some v) : (id, v) ∈ s := by
  induction s with
  | nil => simp [storeGet] at h
  | cons e rest ih =>
    obtain ⟨k, w⟩ := e
    by_cases hk : k = id
    · subst hk
      simp [storeGet] at h
      simp [h]
    · simp [storeGet, hk] at h
      exact List.mem_cons_of_mem _ (ih h)

theorem storeGet_eq_none (id : List Char) (s : Store)
    (h : ∀ e ∈ s, e.1 ≠ id) : storeGet id s = none := by
  induction s with
  | nil => rfl
  | cons e rest ih =>
    obtain ⟨k, w⟩ := e
    have hk : k ≠ id := h (k, w) (by simp)
    simp only [storeGet, if_neg hk]
    exact ih (fun e he => h e (List.mem_cons_of_mem _ he))

theorem redirectHandler_store (f : Bytes → Bytes) (path : List Char) (s : Store) :
    (redirectHandler f path s).2 = s := by
  unfold redirectHandler
  simp only [List.drop_one]
  cases h : storeGet path.tail s with
  | none => simp [h]
  | some enc => cases h2 : decrypt f enc <;> simp [h, h2]

theorem goStartsWith_ne_nil (u pre : Bytes) (hpre : pre ≠ [])
    (h : goStartsWith u pre = true) : u ≠ [] := by
  intro hu
  subst hu
  cases pre with
  | nil => exact hpre rfl
  | cons p ps => simp [goStartsWith] at h

theorem shortenUrl_store_cases (f : Bytes → Bytes) (u iv : Bytes)
    (draws : Nat → Nat) (s : Store) :
    (shortenUrl f u iv draws s).2 = s ∨
    ((goStartsWith u (asciiBytes "https://") = true ∨
      goStartsWith u (asciiBytes "http://") = true) ∧
     (shortenUrl f u iv draws s).2
       = storePut (generateShortId draws) (encrypt f iv u) s) := by
  unfold shortenUrl
  by_cases h0 : u = []
  · simp [h0]
  · rw [if_neg h0]
    by_cases h1 : (goStartsWith u (asciiBytes "https://")
        || goStartsWith u (asciiBytes "http://")) = true
    · right
      refine ⟨by simpa using h1, ?_⟩
      simp [h1, storePut]
    · left
      simp only [Bool.not_eq_true] at h1
      simp [h1]

theorem shortenUrl_valid (f : Bytes → Bytes) (u iv : Bytes)
    (draws : Nat → Nat) (s : Store)
    (hu : goStartsWith u (asciiBytes "https://") = true ∨
          goStartsWith u (asciiBytes "http://") = true) :
    shortenUrl f u iv draws s =
      (HResponse.Ok ("The shortened url is: http://localhost:8080/"
          ++ String.mk (generateShortId draws)),
       storePut (generateShortId draws) (encrypt f iv u) s) := by
  have hne : u ≠ [] := by
    rcases hu with h | h
    · exact goStartsWith_ne_nil u _ (by decide) h
    · exact goStartsWith_ne_nil u _ (by decide) h
  have hcond : (goStartsWith u (asciiBytes "https://")
      || goStartsWith u (asciiBytes "http://")) = true := by
    rcases hu with h | h <;> simp [h]
  unfold shortenUrl
  rw [if_neg hne]
  simp [hcond, storePut]

theorem reachable_entry_wf (f : Bytes → Bytes) (s : Store)
    (h : Reachable f s) : ∀ e ∈ s, EntryWF f e := by
  induction h with
  | init => simp
  | shorten s u iv draws hr hiv hivb hdr hub ih =>
    rcases shortenUrl_store_cases f u iv draws s with hc | ⟨hu, hc⟩
    · rw [hc]; exact ih
    · rw [hc]
      intro e he
      rcases List.mem_cons.mp he with he | he
      · subst he
        refine ⟨⟨generateShortId_length draws, generateShortId_mem draws hdr⟩,
          u, iv, hu, hub, hiv, hivb, rfl⟩
      · exact ih e he
  | redirect s path hr ih =>
    rw [redirectHandler_store]
    exact ih

theorem zeroBlock_isBlockFn : BlockFn zeroBlock := by
  constructor
  · intro x; simp [zeroBlock]
  · intro x b hb
    simp [zeroBlock, List.eq_of_mem_replicate hb]

theorem zeroStore1_reachable : Reachable zeroBlock zeroStore1 :=
  Reachable.shorten [] urlX ivZero drawsZero Reachable.init
    (by decide) (by decide) (fun i => by show 0 < 62; decide) (by decide)

theorem redirectHandler_notFound (f : Bytes → Bytes) (path : List Char) (s : Store)
    (h1 : storeGet path.tail s = none) :
    redirectHandler f path s
      = (HResponse.Error "This url does not exist in our project" 404, s) := by
  unfold redirectHandler
  simp only [List.drop_one]
  simp [h1]

theorem redirectHandler_found (f : Bytes → Bytes) (path : List Char) (s : Store)
    (enc : List Char) (u : Bytes)
    (h1 : storeGet path.tail s = some enc) (h2 : decrypt f enc = some u) :
    redirectHandler f path s = (HResponse.Redirect u 302, s) := by
  unfold redirectHandler
  simp only [List.drop_one]
  simp [h1, h2]

/-! # Claim theorems -/

/-- C1: for every URL u whose scheme is http:// or https://, shortening u
(encrypt with the fresh IV, store under the generated id) and then handling a
redirect for that id recovers exactly u: decrypt(encrypt(u)) = u for every
16-byte IV, the store returns the payload written for the id, and the
redirect answers 302 with target u. -/
theorem C1_shorten_redirect_roundtrip (f : Bytes → Bytes) (hf : BlockFn f)
    (u iv : Bytes) (draws : Nat → Nat) (s : Store)
    (hu : goStartsWith u (asciiBytes "https://") = true ∨
          goStartsWith u (asciiBytes "http://") = true)
    (hub : ∀ b ∈ u, b < 256)
    (hiv : iv.length = 16) (hivb : ∀ b ∈ iv, b < 256) :
    decrypt f (encrypt f iv u) = some u ∧
    storeGet (generateShortId draws) (shortenUrl f u iv draws s).2
      = some (encrypt f iv u) ∧
    (redirectHandler f ('/' :: generateShortId draws)
        (shortenUrl f u iv draws s).2).1 = HResponse.Redirect u 302 := by
  have hdec := decrypt_encrypt f hf iv u hiv hivb hub
  have hsnd : (shortenUrl f u iv draws s).2
      = storePut (generateShortId draws) (encrypt f iv u) s := by
    rw [shortenUrl_valid f u iv draws s hu]
  have hget : storeGet (generateShortId draws) (shortenUrl f u iv draws s).2
      = some (encrypt f iv u) := by
    rw [hsnd]; exact storeGet_storePut _ _ s
  refine ⟨hdec, hget, ?_⟩
  rw [redirectHandler_found f ('/' :: generateShortId draws)
    (shortenUrl f u iv draws s).2 (encrypt f iv u) u hget hdec]

/-- C1 witness: the round trip at concrete inputs. -/
theorem C1_witness :
    decrypt zeroBlock (encrypt zeroBlock ivZero urlX) = some urlX ∧
    storeGet (generateShortId drawsZero)
        (shortenUrl zeroBlock urlX ivZero drawsZero []).2
      = some (encrypt zeroBlock ivZero urlX) ∧
    (redirectHandler zeroBlock ('/' :: generateShortId drawsZero)
        (shortenUrl zeroBlock urlX ivZero drawsZero []).2).1
      = HResponse.Redirect urlX 302 :=
  C1_shorten_redirect_roundtrip zeroBlock zeroBlock_isBlockFn urlX ivZero drawsZero []
    (Or.inr (by decide)) (by decide) (by decide) (by decide)

/-- C2 counterexample: the claim says the counter's expiry is set only on the
call that creates the counter. In the code the TxPipeline runs EXPIRE on
every call: with limit 10 and window 60, the creating call at t = 0 stores
expiry 60, and the second call at t = 30 — not a creating call, the counter
is still live with count 1 — rewrites the expiry to 90 instead of leaving
it at 60. -/
theorem C2_counterexample :
    liveCount (RateLimiter.allow ⟨10, 60⟩ "k" 0 true []).2 "k" 30 = 1 ∧
    redisGet "k" (RateLimiter.allow ⟨10, 60⟩ "k" 0 true []).2
      = some ⟨1, 60⟩ ∧
    redisGet "k"
      (RateLimiter.allow ⟨10, 60⟩ "k" 30 true
        (RateLimiter.allow ⟨10, 60⟩ "k" 0 true []).2).2 = some ⟨2, 90⟩ ∧
    redisGet "k"
      (RateLimiter.allow ⟨10, 60⟩ "k" 30 true
        (RateLimiter.allow ⟨10, 60⟩ "k" 0 true []).2).2 ≠ some ⟨2, 60⟩ := by
  decide

/-- C2 (amended): allow(k) atomically increments k's counter and returns true
exactly when the post-increment count is at most the limit, and the counter's
expiry is reset to the window duration on every call, not only on the call
that creates the counter; in particular, with limit 10, the first 10 calls
for k within one window return true and the 11th returns false. -/
theorem C2_allow_amended :
    (∀ (rl : RateLimiter) (k : String) (t : Nat) (s : RedisState),
      (rl.allow k t true s).1 = decide (liveCount s k t + 1 ≤ rl.limit) ∧
      redisGet k (rl.allow k t true s).2
        = some ⟨liveCount s k t + 1, t + rl.window⟩) ∧
    (allowRun ⟨10, 60⟩ "k" [0, 1, 2, 3, 4, 5, 6, 7, 8, 9, 10] []).1 =
      [true, true, true, true, true, true, true, true, true, true, false] := by
  constructor
  · intro rl k t s
    exact ⟨rfl, by simp [RateLimiter.allow, redisSet, redisGet]⟩
  · decide

/-- C3: when the counter-service interaction fails (pipe.Exec returns an
error), allow returns false — it fails closed, never true. -/
theorem C3_allow_fail_closed (rl : RateLimiter) (k : String) (t : Nat)
    (s : RedisState) : (rl.allow k t false s).1 = false := rfl

/-- C4: two calls of encrypt on the same plaintext that draw distinct IVs
produce different encoded payloads, and decrypt recovers the same original
from each. -/
theorem C4_encrypt_iv_distinct (f : Bytes → Bytes) (hf : BlockFn f)
    (u iv1 iv2 : Bytes)
    (h1 : iv1.length = 16) (h1b : ∀ b ∈ iv1, b < 256)
    (h2 : iv2.length = 16) (h2b : ∀ b ∈ iv2, b < 256)
    (hub : ∀ b ∈ u, b < 256) (hne : iv1 ≠ iv2) :
    encrypt f iv1 u ≠ encrypt f iv2 u ∧
    decrypt f (encrypt f iv1 u) = some u ∧
    decrypt f (encrypt f iv2 u) = some u := by
  obtain ⟨hf1, hf2⟩ := hf
  refine ⟨?_, decrypt_encrypt f ⟨hf1, hf2⟩ iv1 u h1 h1b hub,
    decrypt_encrypt f ⟨hf1, hf2⟩ iv2 u h2 h2b hub⟩
  intro he
  apply hne
  have hb1 : ∀ b ∈ iv1 ++ ctrXor f iv1 u, b < 256 := by
    intro b hb
    rcases List.mem_append.mp hb with hb | hb
    · exact h1b b hb
    · exact ctrXor_lt f hf2 iv1 u hub b hb
  have hb2 : ∀ b ∈ iv2 ++ ctrXor f iv2 u, b < 256 := by
    intro b hb
    rcases List.mem_append.mp hb with hb | hb
    · exact h2b b hb
    · exact ctrXor_lt f hf2 iv2 u hub b hb
  have e2 : iv1 ++ ctrXor f iv1 u = iv2 ++ ctrXor f iv2 u :=
    hexEncode_injOn _ _ hb1 hb2 he
  have t1 : (iv1 ++ ctrXor f iv1 u).take 16 = iv1 := by
    rw [show (16 : Nat) = iv1.length from h1.symm]
    exact List.take_left iv1 _
  have t2 : (iv2 ++ ctrXor f iv2 u).take 16 = iv2 := by
    rw [show (16 : Nat) = iv2.length from h2.symm]
    exact List.take_left iv2 _
  calc iv1 = (iv1 ++ ctrXor f iv1 u).take 16 := t1.symm
    _ = (iv2 ++ ctrXor f iv2 u).take 16 := by rw [e2]
    _ = iv2 := t2

/-- C4 witness: concrete distinct IVs give distinct payloads, both
decrypting to the original. -/
theorem C4_witness :
    encrypt zeroBlock ivZero urlX ≠ encrypt zeroBlock ivOne urlX ∧
    decrypt zeroBlock (encrypt zeroBlock ivZero urlX) = some urlX ∧
    decrypt zeroBlock (encrypt zeroBlock ivOne urlX) = some urlX :=
  C4_encrypt_iv_distinct zeroBlock zeroBlock_isBlockFn urlX ivZero ivOne
    (by decide) (by decide) (by decide) (by decide) (by decide) (by decide)

/-- C5: generateShortId returns a string of exactly 6 characters, each drawn
from the 62-symbol alphabet, for every draw sequence whose draws are indices
strictly below 62. -/
theorem C5_generateShortId_spec (draws : Nat → Nat) (h : ∀ i, draws i < 62) :
    (generateShortId draws).length = 6 ∧
    ∀ c ∈ generateShortId draws, c ∈ lettersRune :=
  ⟨generateShortId_length draws, generateShortId_mem draws h⟩

/-- C5 witness: at the constant-zero draw stream. -/
theorem C5_witness :
    (generateShortId drawsZero).length = 6 ∧ 'a' ∈ lettersRune :=
  ⟨(C5_generateShortId_spec drawsZero (fun i => by show 0 < 62; decide)).1,
   (C5_generateShortId_spec drawsZero (fun i => by show 0 < 62; decide)).2
     'a' (by decide)⟩

/-- C6: a shorten request with an empty url parameter gets the
missing-parameter 400 error, and one whose value starts with neither
https:// nor http:// gets the scheme 400 error; in both cases the store is
unchanged. -/
theorem C6_shorten_validation (f : Bytes → Bytes) (iv : Bytes)
    (draws : Nat → Nat) (s : Store) :
    shortenUrl f [] iv draws s
      = (HResponse.Error "URL parameter in query is required" 400, s) ∧
    ∀ u : Bytes, u ≠ [] →
      goStartsWith u (asciiBytes "https://") = false →
      goStartsWith u (asciiBytes "http://") = false →
      shortenUrl f u iv draws s
        = (HResponse.Error "URL parameter must have the value https:// or http://" 400, s) := by
  constructor
  · rfl
  · intro u hne h1 h2
    unfold shortenUrl
    rw [if_neg hne]
    simp [h1, h2]

/-- C6 witness: the missing-parameter error and the scheme error on
ftp://x, both leaving the empty store unchanged. -/
theorem C6_witness :
    shortenUrl zeroBlock [] ivZero drawsZero []
      = (HResponse.Error "URL parameter in query is required" 400, []) ∧
    shortenUrl zeroBlock (asciiBytes "ftp://x") ivZero drawsZero []
      = (HResponse.Error "URL parameter must have the value https:// or http://" 400, []) :=
  ⟨(C6_shorten_validation zeroBlock ivZero drawsZero []).1,
   (C6_shorten_validation zeroBlock ivZero drawsZero []).2
     (asciiBytes "ftp://x") (by decide) (by decide) (by decide)⟩

/-- C7: on a reachable store, a redirect for an id not in the store answers
the 404 not-found error with the state unchanged, and a redirect for a
stored id answers a 302 redirect whose target is the original URL the
stored payload encrypts. -/
theorem C7_redirect_spec (f : Bytes → Bytes) (hf : BlockFn f) (s : Store)
    (hs : Reachable f s) (id : List Char) :
    (storeGet id s = none →
      redirectHandler f ('/' :: id) s
        = (HResponse.Error "This url does not exist in our project" 404, s)) ∧
    (∀ enc, storeGet id s = some enc →
      ∃ u iv : Bytes,
        (goStartsWith u (asciiBytes "https://") = true ∨
         goStartsWith u (asciiBytes "http://") = true) ∧
        enc = encrypt f iv u ∧
        (redirectHandler f ('/' :: id) s).1 = HResponse.Redirect u 302) := by
  constructor
  · intro h
    exact redirectHandler_notFound f ('/' :: id) s h
  · intro enc h
    have hmem : (id, enc) ∈ s := storeGet_mem id s enc h
    obtain ⟨-, u, iv, hu, hub, hiv, hivb, henc⟩ :=
      reachable_entry_wf f s hs (id, enc) hmem
    have henc' : enc = encrypt f iv u := henc
    refine ⟨u, iv, hu, henc', ?_⟩
    have hdec : decrypt f enc = some u := by
      rw [henc']; exact decrypt_encrypt f hf iv u hiv hivb hub
    rw [redirectHandler_found f ('/' :: id) s enc u h hdec]

/-- C7 witness: an unknown id on a concrete reachable store answers 404 with
the store unchanged. -/
theorem C7_witness :
    redirectHandler zeroBlock ('/' :: ['z']) zeroStore1
      = (HResponse.Error "This url does not exist in our project" 404, zeroStore1) :=
  (C7_redirect_spec zeroBlock zeroBlock_isBlockFn zeroStore1
    zeroStore1_reachable ['z']).1 (by decide)

/-- C8: the encoded payload of encrypt is the hex encoding of the 16-byte IV
followed by a ciphertext of exactly the plaintext's length, so it has
exactly 2 * (16 + len u) characters. -/
theorem C8_encrypt_length (f : Bytes → Bytes) (hf : ∀ x, (f x).length = 16)
    (iv u : Bytes) (hiv : iv.length = 16) :
    (encrypt f iv u).length = 2 * (16 + u.length) := by
  unfold encrypt
  rw [hexEncode_length]
  simp [ctrXor_length f hf, hiv]

/-- C8 witness: the payload length at concrete inputs. -/
theorem C8_witness :
    (encrypt zeroBlock ivZero urlX).length = 2 * (16 + urlX.length) :=
  C8_encrypt_length zeroBlock (fun x => by simp [zeroBlock]) ivZero urlX
    (by decide)

/-- C9: in every reachable store state, every key was produced by the id
generator (6 characters over the 62-symbol alphabet) and every value is the
crypto engine's output for some valid URL; consequently decrypt on a stored
value never reaches its malformed-input failure branch. -/
theorem C9_store_invariant (f : Bytes → Bytes) (hf : BlockFn f) (s : Store)
    (h : Reachable f s) :
    ∀ e ∈ s, EntryWF f e ∧ decrypt f e.2 ≠ none := by
  intro e he
  have hwf := reachable_entry_wf f s h e he
  refine ⟨hwf, ?_⟩
  obtain ⟨-, u, iv, hu, hub, hiv, hivb, henc⟩ := hwf
  rw [henc, decrypt_encrypt f hf iv u hiv hivb hub]
  simp

/-- C9 witness: decrypt succeeds on the stored value of a concrete reachable
store. -/
theorem C9_witness :
    decrypt zeroBlock (encrypt zeroBlock ivZero urlX) ≠ none :=
  (C9_store_invariant zeroBlock zeroBlock_isBlockFn zeroStore1
    zeroStore1_reachable (generateShortId drawsZero, encrypt zeroBlock ivZero urlX)
    (by decide)).2

/-- C10: in every reachable store state every stored id has length 6, so the
empty string is never a key, and a redirect for GET / (whose path yields the
empty id) answers the 404 not-found error. -/
theorem C10_empty_id (f : Bytes → Bytes) (s : Store) (h : Reachable f s) :
    (∀ e ∈ s, e.1.length = 6) ∧
    storeGet ([] : List Char) s = none ∧
    redirectHandler f ['/'] s
      = (HResponse.Error "This url does not exist in our project" 404, s) := by
  have hlen : ∀ e ∈ s, e.1.length = 6 :=
    fun e he => (reachable_entry_wf f s h e he).1.1
  have hkeys : ∀ e ∈ s, e.1 ≠ ([] : List Char) := by
    intro e he hnil
    have h6 := hlen e he
    rw [hnil] at h6
    simp at h6
  have hnone : storeGet ([] : List Char) s = none := storeGet_eq_none _ s hkeys
  exact ⟨hlen, hnone, redirectHandler_notFound f ['/'] s hnone⟩

/-- C10 witness: GET / answers 404 on a concrete reachable store. -/
theorem C10_witness :
    storeGet ([] : List Char) zeroStore1 = none ∧
    redirectHandler zeroBlock ['/'] zeroStore1
      = (HResponse.Error "This url does not exist in our project" 404, zeroStore1) :=
  ⟨(C10_empty_id zeroBlock zeroStore1 zeroStore1_reachable).2.1,
   (C10_empty_id zeroBlock zeroStore1 zeroStore1_reachable).2.2⟩

end Shortener
